import Mathlib

/-!
# Verification of the Rippley agent core

A shallow embedding of the two core modules of the repository,
`src/agent_core/memory_link.py` (a TTL-governed keyed memory store with
categorical indexing) and `src/agent_core/task_runner.py` (a bounded
concurrent task scheduler), together with theorems settling the spec's
claims about them.

Modelling conventions:
* Python `dict`s become association lists `List (String × α)`; insertion
  replaces the first binding in place or appends a fresh binding at the end,
  exactly matching CPython's insertion-ordered dict semantics.
* `datetime.now()` becomes an explicit clock parameter `now : Nat`; each
  operation that reads the clock takes it as an argument.
* Values stored in the memory store and task payloads/results are modelled
  by `Val := String`; Python's `str(value)` is then the identity.
* Python exceptions raised by handlers/callbacks are modelled with
  `Except String`.
-/

namespace Rippley

/-- Stored values and task payloads/results (opaque in the source). -/
abbrev Val := String

/-- `lookupKV l k` models `l[k]` / `l.get(k)` on a Python dict represented as
an insertion-ordered association list: the first binding for `k` wins. -/
def lookupKV {α : Type} : List (String × α) → String → Option α
  | [], _ => none
  | (k', v) :: rest, k => if k' = k then some v else lookupKV rest k

/-- `insertKV l k v` models `l[k] = v` on a Python dict: an existing binding
is replaced in place, a new key is appended at the end. -/
def insertKV {α : Type} : List (String × α) → String → α → List (String × α)
  | [], k, v => [(k, v)]
  | (k', v') :: rest, k, v =>
    if k' = k then (k, v) :: rest else (k', v') :: insertKV rest k v

/-- `eraseKV l k` models `del l[k]` on a Python dict: the first binding for
`k` is dropped (and the operation is a no-op when `k` is absent, which the
source always guards with a membership test before `del`). -/
def eraseKV {α : Type} : List (String × α) → String → List (String × α)
  | [], _ => []
  | (k', v') :: rest, k => if k' = k then rest else (k', v') :: eraseKV rest k

/-- `memberKV l k` models `k in l` on a Python dict. -/
def memberKV {α : Type} (l : List (String × α)) (k : String) : Bool :=
  (lookupKV l k).isSome

/-- `removeFirst l k` models Python's `l.remove(k)` on a list of keys: the
first occurrence of `k` is dropped (the source guards the call with
`if k in l`, and `removeFirst` is a no-op when `k` is absent). -/
def removeFirst : List String → String → List String
  | [], _ => []
  | x :: xs, k => if x = k then xs else x :: removeFirst xs k

/-- Case-insensitive character list of a string, modelling `s.lower()`. -/
def lowerChars (s : String) : List Char := s.data.map Char.toLower

/-- `leadChars n h` holds when `h` starts with `n`. -/
def leadChars : List Char → List Char → Bool
  | [], _ => true
  | _ :: _, [] => false
  | a :: as, b :: bs => a = b && leadChars as bs

/-- `subChars n h` holds when `n` occurs contiguously inside `h`. -/
def subChars (n : List Char) : List Char → Bool
  | [] => leadChars n []
  | h :: t => leadChars n (h :: t) || subChars n t

/-- `strContainsCI q s` models Python's `q.lower() in s.lower()`
(case-insensitive substring test). -/
def strContainsCI (q s : String) : Bool :=
  subChars (lowerChars q) (lowerChars s)

/-! ## Memory store (`src/agent_core/memory_link.py`) -/

namespace Mem

/-- `MemoryEntry` (memory_link.py lines 15-32): a single memory entry. -/
structure MemoryEntry where
  key : String
  value : Val
  metadata : List (String × Val)
  created_at : Nat
  accessed_at : Nat
  access_count : Nat
  ttl : Option Nat
deriving DecidableEq

/-- `MemoryEntry.is_expired` (lines 28-32): `ttl is set AND
now > created_at + ttl`. -/
def MemoryEntry.is_expired (now : Nat) (e : MemoryEntry) : Bool :=
  match e.ttl with
  | none => false
  | some t => decide (e.created_at + t < now)

/-- A record produced by `MemoryEntry.to_dict` (lines 40-51). The
`created_at`/`accessed_at` ISO strings are kept as their `Nat` clock
values. -/
structure ExportRecord where
  key : String
  value : Val
  metadata : List (String × Val)
  created_at : Nat
  accessed_at : Nat
  access_count : Nat
  ttl : Option Nat
  expired : Bool
deriving DecidableEq

/-- `MemoryEntry.to_dict` (lines 40-51). -/
def MemoryEntry.to_dict (now : Nat) (e : MemoryEntry) : ExportRecord :=
  ⟨e.key, e.value, e.metadata, e.created_at, e.accessed_at, e.access_count,
   e.ttl, e.is_expired now⟩

/-- The mutable state of a `MemoryLink` (lines 54-62): the primary mapping
`memories : key → MemoryEntry` and the category index
`categories : category → list of keys` (a `defaultdict(list)`).
The cleanup threshold is the fixed constant `0.8`. -/
structure MemoryLink where
  agent_id : String
  max_entries : Nat
  memories : List (String × MemoryEntry)
  categories : List (String × List String)
deriving DecidableEq

/-- `MemoryLink.__init__` (lines 57-62); the source default for
`max_entries` is 10000. -/
def init (agent_id : String) (max_entries : Nat) : MemoryLink :=
  { agent_id := agent_id, max_entries := max_entries,
    memories := [], categories := [] }

/-- `MemoryLink._remove_memory` (lines 224-232): delete the entry (the
source guards `del` with a membership test, subsumed by `eraseKV` being a
no-op on absent keys) and scrub the key from every category's list
(`keys.remove(key)` removes the first occurrence, guarded by
`if key in keys`, subsumed by `removeFirst`). -/
def remove_memory (m : MemoryLink) (key : String) : MemoryLink :=
  { m with
    memories := eraseKV m.memories key,
    categories := m.categories.map (fun p => (p.1, removeFirst p.2 key)) }

/-- `MemoryLink._cleanup_expired` (lines 234-242): collect the keys of all
currently-expired entries, then remove each. Returns the count as the
source does. -/
def cleanup_expired (now : Nat) (m : MemoryLink) : Nat × MemoryLink :=
  let expired_keys :=
    (m.memories.filter (fun p => p.2.is_expired now)).map Prod.fst
  (expired_keys.length, expired_keys.foldl remove_memory m)

/-- The cleanup trigger of `store` (line 69):
`len(self.memories) >= self.max_entries * 0.8`, i.e. the TOTAL entry count
(expired entries included). Over the integers this is
`5 * len >= 4 * max_entries` (exact for the source's constant 0.8;
e.g. max_entries = 10 triggers at 8 entries). -/
def cleanupTriggered (m : MemoryLink) : Bool :=
  decide (4 * m.max_entries ≤ 5 * m.memories.length)

/-- `MemoryLink.store` (lines 64-81): run the expired-entry purge if the
entry count has reached the threshold, insert/overwrite the entry (fresh
creation time and access statistics), and, when a category is given, append
the key to that category's list unless already present (the
`self.categories[category]` access materialises the defaultdict entry). -/
def store (now : Nat) (m : MemoryLink) (key : String) (value : Val)
    (category : Option String) (metadata : List (String × Val))
    (ttl : Option Nat) : MemoryLink :=
  let m1 := if cleanupTriggered m then (cleanup_expired now m).2 else m
  let entry : MemoryEntry :=
    { key := key, value := value, metadata := metadata, created_at := now,
      accessed_at := now, access_count := 0, ttl := ttl }
  let m2 := { m1 with memories := insertKV m1.memories key entry }
  match category with
  | none => m2
  | some cat =>
    let keys := (lookupKV m2.categories cat).getD []
    let keys' := if key ∈ keys then keys else keys ++ [key]
    { m2 with categories := insertKV m2.categories cat keys' }

/-- Record an access (`MemoryEntry.access`, lines 34-38) on the entry
stored under `key`: refresh `accessed_at`, bump `access_count`. -/
def accessEntry (now : Nat) (m : MemoryLink) (key : String)
    (e : MemoryEntry) : MemoryLink :=
  let e' : MemoryEntry :=
    { e with accessed_at := now, access_count := e.access_count + 1 }
  { m with memories := insertKV m.memories key e' }

/-- `MemoryLink.retrieve` (lines 83-93): absent if unknown; an expired entry
is removed as a side effect and reported absent; otherwise the value is
returned and an access recorded. -/
def retrieve (now : Nat) (m : MemoryLink) (key : String) :
    Option Val × MemoryLink :=
  match lookupKV m.memories key with
  | none => (none, m)
  | some e =>
    if e.is_expired now then (none, remove_memory m key)
    else (some e.value, accessEntry now m key e)

/-- `MemoryLink.retrieve_by_category` (lines 95-106): iterate a snapshot
(`.copy()`) of the category's key list, applying `retrieve` to each and
keeping the live hits. -/
def retrieve_by_category (now : Nat) (m : MemoryLink) (category : String) :
    List (String × Val) × MemoryLink :=
  match lookupKV m.categories category with
  | none => ([], m)
  | some keys =>
    keys.foldl
      (fun acc k =>
        match retrieve now acc.2 k with
        | (some v, st) => (insertKV acc.1 k v, st)
        | (none, st) => (acc.1, st))
      ([], m)

/-- One iteration of the `search` loop (lines 113-133): skip keys no longer
in the store, lazily remove expired entries, and record a hit (with an
access) when the query occurs case-insensitively in the key or in the
string form of the value. -/
def searchStep (now : Nat) (query : String)
    (acc : List (String × Val) × MemoryLink) (k : String) :
    List (String × Val) × MemoryLink :=
  match lookupKV acc.2.memories k with
  | none => acc
  | some e =>
    if e.is_expired now then (acc.1, remove_memory acc.2 k)
    else if strContainsCI query k then
      (insertKV acc.1 k e.value, accessEntry now acc.2 k e)
    else if strContainsCI query e.value then
      (insertKV acc.1 k e.value, accessEntry now acc.2 k e)
    else acc

/-- `MemoryLink.search` (lines 108-135). Line 111:
`self.categories.get(category, self.memories.keys()) if category else
self.memories.keys()` — an unknown category falls back to the key list of
the WHOLE store. -/
def search (now : Nat) (m : MemoryLink) (query : String)
    (category : Option String) : List (String × Val) × MemoryLink :=
  let search_keys :=
    match category with
    | some cat =>
      match lookupKV m.categories cat with
      | some keys => keys
      | none => m.memories.map Prod.fst
    | none => m.memories.map Prod.fst
  search_keys.foldl (searchStep now query) ([], m)

/-- `MemoryLink.update` (lines 137-153): `false` on an unknown key; an
expired entry is removed and reported `false`; otherwise overwrite the
value, merge the metadata (`dict.update`), refresh `accessed_at` without
touching `access_count`. -/
def update (now : Nat) (m : MemoryLink) (key : String) (value : Val)
    (metadata : Option (List (String × Val))) : Bool × MemoryLink :=
  match lookupKV m.memories key with
  | none => (false, m)
  | some e =>
    if e.is_expired now then (false, remove_memory m key)
    else
      let meta' :=
        match metadata with
        | none => e.metadata
        | some md => md.foldl (fun a p => insertKV a p.1 p.2) e.metadata
      let e' : MemoryEntry :=
        { e with value := value, metadata := meta', accessed_at := now }
      (true, { m with memories := insertKV m.memories key e' })

/-- `MemoryLink.delete` (lines 155-160). -/
def delete (m : MemoryLink) (key : String) : Bool × MemoryLink :=
  if memberKV m.memories key then (true, remove_memory m key) else (false, m)

/-- `MemoryLink.clear_category` (lines 162-173): delete every key in a
snapshot of the category's list, counting the successful deletions, then
drop the category itself. -/
def clear_category (m : MemoryLink) (category : String) :
    Nat × MemoryLink :=
  match lookupKV m.categories category with
  | none => (0, m)
  | some keys =>
    let r := keys.foldl
      (fun acc k =>
        match delete acc.2 k with
        | (true, st) => (acc.1 + 1, st)
        | (false, st) => (acc.1, st))
      (0, m)
    (r.1, { r.2 with categories := eraseKV r.2.categories category })

/-- The body of the `export_memories` loop (lines 197-201). -/
def exportBody (now : Nat) (mems : List (String × MemoryEntry))
    (k : String) : Option ExportRecord :=
  match lookupKV mems k with
  | some e => if e.is_expired now then none else some (e.to_dict now)
  | none => none

/-- `MemoryLink.export_memories` (lines 192-203): serialise every live
entry among the selected keys; the key selection (line 195) has the same
unknown-category fallback as `search`. -/
def export_memories (now : Nat) (m : MemoryLink)
    (category : Option String) : List ExportRecord :=
  let search_keys :=
    match category with
    | some cat =>
      match lookupKV m.categories cat with
      | some keys => keys
      | none => m.memories.map Prod.fst
    | none => m.memories.map Prod.fst
  search_keys.filterMap (exportBody now m.memories)

/-- `MemoryLink.import_memories` (lines 205-222): re-`store` each record's
key/value/metadata/ttl (no category), counting the stored records. In this
typed embedding every record carries a key and value, so the source's
malformed-record skip never fires. -/
def import_memories (now : Nat) (m : MemoryLink)
    (records : List ExportRecord) : Nat × MemoryLink :=
  records.foldl
    (fun acc r =>
      (acc.1 + 1, store now acc.2 r.key r.value none r.metadata r.ttl))
    (0, m)

/-- Observation used by the round-trip claim: the value, metadata and ttl
stored live under a key (`none` when the key is absent or expired). -/
def liveLookup (now : Nat) (m : MemoryLink) (k : String) :
    Option (Val × List (String × Val) × Option Nat) :=
  match lookupKV m.memories k with
  | none => none
  | some e =>
    if e.is_expired now then none else some (e.value, e.metadata, e.ttl)

/-- First record with the given key in an export list, projected to
value/metadata/ttl. -/
def recLookup (rs : List ExportRecord) (k : String) :
    Option (Val × List (String × Val) × Option Nat) :=
  match rs with
  | [] => none
  | r :: t => if r.key = k then some (r.value, r.metadata, r.ttl)
              else recLookup t k

/-- States reachable from a freshly constructed `MemoryLink` by any
sequence of its mutating public operations. -/
inductive Reachable : MemoryLink → Prop where
  | init (agent_id : String) (max_entries : Nat) :
      Reachable (init agent_id max_entries)
  | store {m : MemoryLink} (hm : Reachable m) (now : Nat) (k : String)
      (v : Val) (cat : Option String) (md : List (String × Val))
      (ttl : Option Nat) : Reachable (store now m k v cat md ttl)
  | retrieve {m : MemoryLink} (hm : Reachable m) (now : Nat) (k : String) :
      Reachable (retrieve now m k).2
  | retrieve_by_category {m : MemoryLink} (hm : Reachable m) (now : Nat)
      (cat : String) : Reachable (retrieve_by_category now m cat).2
  | search {m : MemoryLink} (hm : Reachable m) (now : Nat) (q : String)
      (cat : Option String) : Reachable (search now m q cat).2
  | update {m : MemoryLink} (hm : Reachable m) (now : Nat) (k : String)
      (v : Val) (md : Option (List (String × Val))) :
      Reachable (update now m k v md).2
  | delete {m : MemoryLink} (hm : Reachable m) (k : String) :
      Reachable (delete m k).2
  | clear_category {m : MemoryLink} (hm : Reachable m) (cat : String) :
      Reachable (clear_category m cat).2
  | import_memories {m : MemoryLink} (hm : Reachable m) (now : Nat)
      (rs : List ExportRecord) : Reachable (import_memories now m rs).2

end Mem

/-! ## Task runner (`src/agent_core/task_runner.py`) -/

namespace TR

/-- `TaskStatus` (task_runner.py lines 15-21). -/
inductive TaskStatus where
  | pending
  | running
  | completed
  | failed
  | cancelled
deriving DecidableEq

/-- `Task` (lines 24-38). A handler/callback "raising" is modelled by
`Except.error` carrying the exception description (`str(e)`). -/
structure Task where
  task_id : String
  task_type : String
  payload : Val
  callback : Option (Val → Except String Unit)
  status : TaskStatus := .pending
  created_at : Nat
  started_at : Option Nat := none
  completed_at : Option Nat := none
  result : Option Val := none
  error : Option String := none

/-- The state of a `TaskRunner` (lines 41-50); the source default for
`max_concurrent_tasks` is 5. -/
structure TaskRunner where
  max_concurrent_tasks : Nat
  task_queue : List Task := []
  running_tasks : List (String × Task) := []
  completed_tasks : List (String × Task) := []
  task_handlers : List (String × (Val → Except String Val)) := []

/-- `TaskRunner.add_task` (lines 57-63): unconditionally append a fresh
`PENDING` task to the queue and return it. -/
def add_task (now : Nat) (tr : TaskRunner) (task_id task_type : String)
    (payload : Val) (callback : Option (Val → Except String Unit)) :
    Task × TaskRunner :=
  let task : Task :=
    { task_id := task_id, task_type := task_type, payload := payload,
      callback := callback, created_at := now }
  (task, { tr with task_queue := tr.task_queue ++ [task] })

/-- `TaskRunner.get_task_status` (lines 65-80): running, then completed,
then the queue, in that order. -/
def get_task_status (tr : TaskRunner) (task_id : String) :
    Option TaskStatus :=
  match lookupKV tr.running_tasks task_id with
  | some t => some t.status
  | none =>
    match lookupKV tr.completed_tasks task_id with
    | some t => some t.status
    | none =>
      match tr.task_queue.find? (fun t => t.task_id = task_id) with
      | some t => some t.status
      | none => none

/-- `TaskRunner.get_task_result` (lines 82-86): the `result` field of the
task recorded in `completed_tasks`, `None` otherwise. -/
def get_task_result (tr : TaskRunner) (task_id : String) : Option Val :=
  match lookupKV tr.completed_tasks task_id with
  | some t => t.result
  | none => none

/-- The default result for an unregistered task type (line 103); the
source's dict `{"message": ..., "payload": ...}` is abstracted into one
string value. -/
def noHandlerResult (task : Task) : Val :=
  "No handler for " ++ task.task_type

/-- The task object as it stands when the `try` block of `execute_task`
(lines 90-112) finishes or raises: mark `RUNNING`, look up the handler by
type (an absent handler yields the default result rather than a failure),
record the result, mark `COMPLETED`, and invoke the callback if present.
Returns the task together with `some description` if an exception escaped
the `try` block (from the handler, or from the callback AFTER the task was
already marked `COMPLETED` with its result recorded). -/
def tryBody (now : Nat) (handlers : List (String × (Val → Except String Val)))
    (task : Task) : Task × Option String :=
  let tRun : Task := { task with status := .running, started_at := some now }
  match lookupKV handlers task.task_type with
  | some h =>
    match h task.payload with
    | .error e => (tRun, some e)
    | .ok r =>
      let tDone : Task :=
        { tRun with result := some r, status := .completed,
                    completed_at := some now }
      match task.callback with
      | none => (tDone, none)
      | some cb =>
        match cb r with
        | .ok _ => (tDone, none)
        | .error e => (tDone, some e)
  | none =>
    let r := noHandlerResult task
    let tDone : Task :=
      { tRun with result := some r, status := .completed,
                  completed_at := some now }
    match task.callback with
    | none => (tDone, none)
    | some cb =>
      match cb r with
      | .ok _ => (tDone, none)
      | .error e => (tDone, some e)

/-- `TaskRunner.execute_task` (lines 88-124), run to completion: the task is
put into `running_tasks`, the `try` block runs, an escaped exception is
converted to `FAILED` with the error description and a fresh
`completed_at` stamp (the `except` clause, lines 114-118), and the
`finally` clause (lines 120-124) removes the task from `running_tasks` and
records it in `completed_tasks`. -/
def execute_task (now : Nat) (tr : TaskRunner) (task : Task) : TaskRunner :=
  let tRun : Task := { task with status := .running, started_at := some now }
  let tr1 : TaskRunner :=
    { tr with running_tasks := insertKV tr.running_tasks task.task_id tRun }
  let body := tryBody now tr1.task_handlers task
  let tFinal : Task :=
    match body.2 with
    | none => body.1
    | some e =>
      { body.1 with status := .failed, error := some e,
                    completed_at := some now }
  { tr1 with
    running_tasks := eraseKV tr1.running_tasks task.task_id,
    completed_tasks := insertKV tr1.completed_tasks task.task_id tFinal }

end TR

/-! ## Run-loop concurrency model (`TaskRunner.run`, lines 133-146)

`run()` repeatedly executes, while there is capacity
(`len(self.running_tasks) < self.max_concurrent_tasks`) and the queue is
non-empty, `task = self.task_queue.pop(0); asyncio.create_task(
self.execute_task(task))`, then awaits `asyncio.sleep(0.1)`.

Crucially, `asyncio.create_task` only schedules the coroutine: a dispatched
`execute_task` does not run — and hence does not add itself to
`running_tasks` — until the current coroutine reaches an `await`. The inner
`while` contains no `await`, so `running_tasks` cannot change during it and
a single pass drains the entire queue whenever it starts with spare
capacity. Each spawned `execute_task` then marks its task `RUNNING` and
inserts it into `running_tasks` when the event loop first runs it; a task
whose handler suspends (awaits) stays `RUNNING` until resumed. -/

namespace Sched

/-- A task as needed by the run-loop model: `suspends` says whether its
handler suspends at an `await` before completing (the handler's outcome is
abstracted; it is irrelevant to how many tasks are `RUNNING`). -/
structure ATask where
  task_id : String
  suspends : Bool
  status : TR.TaskStatus := .pending
  created_at : Nat
  started_at : Option Nat := none
  completed_at : Option Nat := none
deriving DecidableEq

/-- The scheduler state: the queue, the set of coroutines created by
`asyncio.create_task` but not yet started by the event loop (`spawned`),
`running_tasks`, and `completed_tasks`. -/
structure SchedState where
  max_concurrent_tasks : Nat
  task_queue : List ATask := []
  spawned : List ATask := []
  running_tasks : List (String × ATask) := []
  completed_tasks : List (String × ATask) := []
deriving DecidableEq

/-- `TaskRunner.add_task` for the run-loop model. -/
def addATask (now : Nat) (s : SchedState) (id : String) (susp : Bool) :
    SchedState :=
  let t : ATask := { task_id := id, suspends := susp, created_at := now }
  { s with task_queue := s.task_queue ++ [t] }

/-- One pass of `run()`'s inner `while` (lines 140-143): with spare
capacity it pops and `create_task`s queue entries until the queue is
empty — `running_tasks` cannot grow during the pass because no spawned
coroutine runs before the loop's next `await`. -/
def dispatchOnce (s : SchedState) : SchedState :=
  if s.running_tasks.length < s.max_concurrent_tasks then
    { s with task_queue := [], spawned := s.spawned ++ s.task_queue }
  else s

/-- The event loop starts the oldest spawned `execute_task` coroutine
(lines 88-93): the task is marked `RUNNING`, stamped, and inserted into
`running_tasks` — with no capacity check. A non-suspending handler runs the
coroutine straight to its `finally` clause (lines 120-124). -/
def startNext (now : Nat) (s : SchedState) : SchedState :=
  match s.spawned with
  | [] => s
  | t :: rest =>
    let tR : ATask := { t with status := .running, started_at := some now }
    if t.suspends then
      { s with spawned := rest,
               running_tasks := insertKV s.running_tasks t.task_id tR }
    else
      let tC : ATask :=
        { tR with status := .completed, completed_at := some now }
      { s with spawned := rest,
               running_tasks := eraseKV
                 (insertKV s.running_tasks t.task_id tR) t.task_id,
               completed_tasks := insertKV s.completed_tasks t.task_id tC }

/-- A suspended handler resumes and its `execute_task` runs to the
`finally` clause: the task leaves `running_tasks` and is recorded
completed. -/
def resumeNext (now : Nat) (s : SchedState) : SchedState :=
  match s.running_tasks with
  | [] => s
  | (id, t) :: rest =>
    let tC : ATask := { t with status := .completed, completed_at := some now }
    { s with running_tasks := rest,
             completed_tasks := insertKV s.completed_tasks id tC }

/-- Scheduler states reachable by interleaving `add_task`, run-loop
dispatch passes, coroutine starts, and handler resumptions. -/
inductive Reach : SchedState → Prop where
  | init (K : Nat) : Reach { max_concurrent_tasks := K }
  | add {s : SchedState} (hs : Reach s) (now : Nat) (id : String)
      (susp : Bool) : Reach (addATask now s id susp)
  | dispatch {s : SchedState} (hs : Reach s) : Reach (dispatchOnce s)
  | start {s : SchedState} (hs : Reach s) (now : Nat) :
      Reach (startNext now s)
  | resume {s : SchedState} (hs : Reach s) (now : Nat) :
      Reach (resumeNext now s)

/-- Whether a task's status is `RUNNING`. -/
def isRunning (t : ATask) : Bool :=
  match t.status with
  | .running => true
  | _ => false

/-- The number of tasks whose status is `RUNNING`, over all containers. -/
def runningStatusCount (s : SchedState) : Nat :=
  (s.task_queue.filter isRunning).length
  + (s.spawned.filter isRunning).length
  + (s.running_tasks.filter (fun p => isRunning p.2)).length
  + (s.completed_tasks.filter (fun p => isRunning p.2)).length

end Sched

/-! ## Derived predicates and concrete scenario states -/

namespace Mem

/-- Binding consistency of the primary mapping: the entry stored under a
key records that key (`self.memories[key] = MemoryEntry(key, ...)`). -/
def KeyConsistent (m : MemoryLink) : Prop := ∀ p ∈ m.memories, p.2.key = p.1

/-- The category-index invariant: every category list is duplicate-free and
every key it holds is present in the primary mapping. -/
def CatInv (m : MemoryLink) : Prop :=
  ∀ cat keys, lookupKV m.categories cat = some keys →
    keys.Nodup ∧ ∀ k, k ∈ keys → memberKV m.memories k = true

/-- Well-formedness of a `MemoryLink` state: duplicate-free primary and
category key sets, plus the category-index invariant. -/
def WF (m : MemoryLink) : Prop :=
  (m.memories.map Prod.fst).Nodup
  ∧ (m.categories.map Prod.fst).Nodup
  ∧ CatInv m

end Mem

/-- Fold a list of fresh keys into a store with plain (no category, no ttl)
`store` calls. -/
def storeAll (now : Nat) (v : Val) (ks : List String)
    (m : Mem.MemoryLink) : Mem.MemoryLink :=
  ks.foldl (fun acc k => Mem.store now acc k v none [] none) m

/-- C2 scenario, first store: key under category "alpha". -/
def c2_pre : Mem.MemoryLink :=
  Mem.store 0 (Mem.init "a" 10) "k" "v" (some "alpha") [] none

/-- C2 scenario, second store: same key re-stored under category "beta". -/
def c2_state : Mem.MemoryLink :=
  Mem.store 0 c2_pre "k" "v2" (some "beta") [] none

/-- C3 scenario (max_entries = 10): seven entries stored with ttl = 1 at
time 0, then, at time 2 (all seven expired), one more non-expiring entry. -/
def c3_seven : Mem.MemoryLink :=
  let f := fun (m : Mem.MemoryLink) (k : String) =>
    Mem.store 0 m k "v" none [] (some 1)
  Mem.store 2
    (f (f (f (f (f (f (f (Mem.init "a" 10) "k1") "k2") "k3") "k4") "k5")
      "k6") "k7")
    "k8" "v" none [] none

/-- Variant of the C3 scenario with eight expiring entries stored before
the final store: the state just before the ninth store. -/
def c3_eight_pre : Mem.MemoryLink :=
  let f := fun (m : Mem.MemoryLink) (k : String) =>
    Mem.store 0 m k "v" none [] (some 1)
  f (f (f (f (f (f (f (f (Mem.init "a" 10) "k1") "k2") "k3") "k4") "k5")
    "k6") "k7") "k8"

/-- The ninth store on top of `c3_eight_pre`, at time 2. -/
def c3_eight : Mem.MemoryLink :=
  Mem.store 2 c3_eight_pre "k9" "v" none [] none

/-- C6 scenario: one uncategorised entry. -/
def c6_state : Mem.MemoryLink :=
  Mem.store 0 (Mem.init "a" 10) "k" "v" none [] none

/-- C6 witness scenario: one entry stored under category "c". -/
def c6_cat_state : Mem.MemoryLink :=
  Mem.store 0 (Mem.init "a" 10) "k" "v" (some "c") [] none

/-- C8 witness scenario: one entry stored under category "c". -/
def c8_state : Mem.MemoryLink :=
  Mem.store 0 (Mem.init "a" 10) "k" "v" (some "c") [] none

/-- C9 witness scenario: two live entries, one with a ttl. -/
def c9_state : Mem.MemoryLink :=
  Mem.store 5 (Mem.store 5 (Mem.init "a" 100) "k1" "v1" none [] none)
    "k2" "v2" none [] (some 9)

/-- C4 scenario: a task already recorded under id "t1". -/
def c4_old_task : TR.Task :=
  { task_id := "t1", task_type := "echo", payload := "p", callback := none,
    created_at := 0 }

/-- C4 scenario: a runner whose completed set already holds id "t1". -/
def c4_tr : TR.TaskRunner :=
  { max_concurrent_tasks := 5,
    completed_tasks := [("t1", c4_old_task)] }

/-- C5/C7 scenario: a runner with an echo handler and a failing handler. -/
def c5_tr : TR.TaskRunner :=
  { max_concurrent_tasks := 5,
    task_handlers := [("echo", fun v => Except.ok v)] }

/-- C5 scenario: an echo task whose callback raises. -/
def c5_task : TR.Task :=
  { task_id := "t1", task_type := "echo", payload := "p",
    callback := some (fun _ => Except.error "boom"), created_at := 0 }

/-- C7 witness scenario: a runner whose only handler raises. -/
def c7_tr : TR.TaskRunner :=
  { max_concurrent_tasks := 5,
    task_handlers := [("blow", fun _ => Except.error "err")] }

/-- C7 witness scenario: a task of the failing type, with a callback. -/
def c7_task : TR.Task :=
  { task_id := "t2", task_type := "blow", payload := "p",
    callback := some (fun _ => Except.ok ()), created_at := 0 }

/-- C1 scenario: two suspending tasks added under bound K = 1, one
dispatch pass, then both coroutines started by the event loop. -/
def c1_state : Sched.SchedState :=
  Sched.startNext 1 (Sched.startNext 1 (Sched.dispatchOnce
    (Sched.addATask 0
      (Sched.addATask 0 { max_concurrent_tasks := 1 } "t1" true)
      "t2" true)))

/-! ## Association-list lemmas -/

theorem lookupKV_insert_self {α : Type} (l : List (String × α)) (k : String)
    (v : α) : lookupKV (insertKV l k v) k = some v := by
  induction l with
  | nil => simp [insertKV, lookupKV]
  | cons p rest ih =>
    by_cases h : p.1 = k
    · simp [insertKV, h, lookupKV]
    · simp [insertKV, h, lookupKV, ih]

theorem lookupKV_insert_ne {α : Type} (l : List (String × α))
    {k k' : String} (v : α) (h : k' ≠ k) :
    lookupKV (insertKV l k v) k' = lookupKV l k' := by
  have hkk' : ¬ (k = k') := fun hh => h hh.symm
  induction l with
  | nil => simp [insertKV, lookupKV, hkk']
  | cons p rest ih =>
    obtain ⟨pk, pv⟩ := p
    by_cases hp : pk = k
    · subst hp
      simp [insertKV, lookupKV, hkk']
    · simp [insertKV, hp, lookupKV, ih]

theorem eraseKV_insertKV {α : Type} (l : List (String × α)) (k : String)
    (v : α) : eraseKV (insertKV l k v) k = eraseKV l k := by
  induction l with
  | nil => simp [insertKV, eraseKV]
  | cons p rest ih =>
    by_cases h : p.1 = k
    · simp [insertKV, h, eraseKV]
    · simp [insertKV, h, eraseKV, ih]

theorem lookupKV_erase_ne {α : Type} (l : List (String × α))
    {k k' : String} (h : k' ≠ k) :
    lookupKV (eraseKV l k) k' = lookupKV l k' := by
  induction l with
  | nil => simp [eraseKV]
  | cons p rest ih =>
    obtain ⟨pk, pv⟩ := p
    by_cases hp : pk = k
    · subst hp
      have hpk' : ¬ (pk = k') := fun hh => h hh.symm
      simp [eraseKV, lookupKV, hpk']
    · simp [eraseKV, hp, lookupKV, ih]

theorem lookupKV_eq_none_iff {α : Type} (l : List (String × α))
    (k : String) : lookupKV l k = none ↔ k ∉ l.map Prod.fst := by
  induction l with
  | nil => simp [lookupKV]
  | cons p rest ih =>
    obtain ⟨pk, pv⟩ := p
    by_cases hp : pk = k
    · subst hp
      simp [lookupKV]
    · simp [lookupKV, hp, ih, Ne.symm hp]

theorem mem_of_lookupKV {α : Type} {l : List (String × α)} {k : String}
    {v : α} (h : lookupKV l k = some v) : (k, v) ∈ l := by
  induction l with
  | nil => simp [lookupKV] at h
  | cons p rest ih =>
    obtain ⟨pk, pv⟩ := p
    by_cases hp : pk = k
    · subst hp
      have h' : pv = v := by simpa [lookupKV] using h
      subst h'
      exact List.mem_cons_self _ _
    · simp only [lookupKV, if_neg hp] at h
      exact List.mem_cons_of_mem _ (ih h)

theorem keys_insertKV {α : Type} (l : List (String × α)) (k : String)
    (v : α) : (insertKV l k v).map Prod.fst =
      if k ∈ l.map Prod.fst then l.map Prod.fst
      else l.map Prod.fst ++ [k] := by
  induction l with
  | nil => simp [insertKV]
  | cons p rest ih =>
    obtain ⟨pk, pv⟩ := p
    by_cases hp : pk = k
    · subst hp
      simp [insertKV]
    · by_cases hk : k ∈ rest.map Prod.fst
      · simp [insertKV, hp, ih, hk, Ne.symm hp]
      · simp [insertKV, hp, ih, hk, Ne.symm hp]

theorem nodup_keys_insertKV {α : Type} {l : List (String × α)}
    (h : (l.map Prod.fst).Nodup) (k : String) (v : α) :
    ((insertKV l k v).map Prod.fst).Nodup := by
  rw [keys_insertKV]
  by_cases hk : k ∈ l.map Prod.fst
  · simpa [hk]
  · rw [if_neg hk, List.nodup_append]
    refine ⟨h, List.nodup_singleton k, ?_⟩
    intro a ha hb
    rw [List.mem_singleton] at hb
    exact hk (hb ▸ ha)

theorem eraseKV_sublist {α : Type} (l : List (String × α)) (k : String) :
    (eraseKV l k).Sublist l := by
  induction l with
  | nil => simp [eraseKV]
  | cons p rest ih =>
    obtain ⟨pk, pv⟩ := p
    by_cases hp : pk = k
    · simp only [eraseKV, if_pos hp]
      exact List.sublist_cons_self _ _
    · simp only [eraseKV, if_neg hp]
      exact List.Sublist.cons₂ _ ih

theorem nodup_keys_eraseKV {α : Type} {l : List (String × α)}
    (h : (l.map Prod.fst).Nodup) (k : String) :
    ((eraseKV l k).map Prod.fst).Nodup :=
  ((eraseKV_sublist l k).map Prod.fst).nodup h

theorem lookupKV_erase_self {α : Type} {l : List (String × α)}
    (h : (l.map Prod.fst).Nodup) (k : String) :
    lookupKV (eraseKV l k) k = none := by
  induction l with
  | nil => simp [eraseKV, lookupKV]
  | cons p rest ih =>
    obtain ⟨pk, pv⟩ := p
    simp only [List.map_cons, List.nodup_cons] at h
    by_cases hp : pk = k
    · subst hp
      simp only [eraseKV, if_pos rfl]
      rw [lookupKV_eq_none_iff]
      exact h.1
    · simp [eraseKV, hp, lookupKV, ih h.2]

theorem memberKV_insertKV {α : Type} {l : List (String × α)} {k' : String}
    (h : memberKV l k' = true) (k : String) (v : α) :
    memberKV (insertKV l k v) k' = true := by
  by_cases hk : k' = k
  · simp [memberKV, hk, lookupKV_insert_self]
  · simpa [memberKV, lookupKV_insert_ne l v hk] using h

theorem mem_insertKV {α : Type} {l : List (String × α)} {k : String}
    {v : α} {p : String × α} (h : p ∈ insertKV l k v) :
    p ∈ l ∨ p = (k, v) := by
  induction l with
  | nil => simpa [insertKV] using h
  | cons q rest ih =>
    obtain ⟨qk, qv⟩ := q
    by_cases hq : qk = k
    · simp only [insertKV, if_pos hq, List.mem_cons] at h
      rcases h with h | h
      · exact Or.inr h
      · exact Or.inl (List.mem_cons_of_mem _ h)
    · simp only [insertKV, if_neg hq, List.mem_cons] at h
      rcases h with h | h
      · exact Or.inl (h ▸ List.mem_cons_self _ rest)
      · rcases ih h with h' | h'
        · exact Or.inl (List.mem_cons_of_mem _ h')
        · exact Or.inr h'

theorem lookupKV_map_snd {α β : Type} (l : List (String × α)) (g : α → β)
    (k : String) :
    lookupKV (l.map (fun p => (p.1, g p.2))) k = (lookupKV l k).map g := by
  induction l with
  | nil => simp [lookupKV]
  | cons p rest ih =>
    obtain ⟨pk, pv⟩ := p
    by_cases hp : pk = k
    · simp [lookupKV, hp]
    · simp [lookupKV, hp, ih]

theorem length_insertKV_of_not_member {α : Type} {l : List (String × α)}
    {k : String} (h : memberKV l k = false) (v : α) :
    (insertKV l k v).length = l.length + 1 := by
  induction l with
  | nil => simp [insertKV]
  | cons p rest ih =>
    obtain ⟨pk, pv⟩ := p
    by_cases hp : pk = k
    · exfalso
      simp [memberKV, lookupKV, hp] at h
    · have h' : memberKV rest k = false := by
        simpa [memberKV, lookupKV, hp] using h
      simp [insertKV, hp, ih h']

theorem removeFirst_sublist (l : List String) (k : String) :
    (removeFirst l k).Sublist l := by
  induction l with
  | nil => simp [removeFirst]
  | cons x xs ih =>
    by_cases hx : x = k
    · simp only [removeFirst, if_pos hx]
      exact List.sublist_cons_self _ _
    · simp only [removeFirst, if_neg hx]
      exact List.Sublist.cons₂ _ ih

theorem mem_of_mem_removeFirst {l : List String} {k k' : String}
    (h : k' ∈ removeFirst l k) : k' ∈ l :=
  (removeFirst_sublist l k).mem h

theorem nodup_removeFirst {l : List String} (h : l.Nodup) (k : String) :
    (removeFirst l k).Nodup :=
  (removeFirst_sublist l k).nodup h

theorem ne_of_mem_removeFirst {l : List String} {k k' : String}
    (hnd : l.Nodup) (h : k' ∈ removeFirst l k) : k' ≠ k := by
  induction l with
  | nil => simp [removeFirst] at h
  | cons x xs ih =>
    simp only [List.nodup_cons] at hnd
    by_cases hx : x = k
    · simp only [removeFirst, if_pos hx] at h
      intro hk
      exact hnd.1 (hx ▸ hk ▸ h)
    · simp only [removeFirst, if_neg hx, List.mem_cons] at h
      rcases h with h | h
      · exact h ▸ hx
      · exact ih hnd.2 h

theorem eq_of_keys_nodup {α : Type} {l : List (String × α)}
    (hnd : (l.map Prod.fst).Nodup) {p q : String × α} (hp : p ∈ l)
    (hq : q ∈ l) (hk : p.1 = q.1) : p = q := by
  induction l with
  | nil => simp at hp
  | cons r rest ih =>
    simp only [List.map_cons, List.nodup_cons] at hnd
    simp only [List.mem_cons] at hp hq
    rcases hp with hp | hp <;> rcases hq with hq | hq
    · exact hp.trans hq.symm
    · exfalso
      exact hnd.1 (hp ▸ hk ▸ (List.mem_map_of_mem Prod.fst hq))
    · exfalso
      exact hnd.1 (hq ▸ hk ▸ (List.mem_map_of_mem Prod.fst hp))
    · exact ih hnd.2 hp hq

theorem eraseKV_eq_filter {α : Type} {l : List (String × α)}
    (hnd : (l.map Prod.fst).Nodup) (k : String) :
    eraseKV l k = l.filter (fun p => decide (p.1 ≠ k)) := by
  induction l with
  | nil => simp [eraseKV]
  | cons p rest ih =>
    obtain ⟨pk, pv⟩ := p
    simp only [List.map_cons, List.nodup_cons] at hnd
    by_cases hp : pk = k
    · subst hp
      have hrest : rest.filter (fun p => !decide (p.1 = pk)) = rest := by
        rw [List.filter_eq_self]
        intro a ha
        by_cases hak : a.1 = pk
        · exact absurd (hak ▸ List.mem_map_of_mem Prod.fst ha) hnd.1
        · simp [hak]
      simp [eraseKV, List.filter_cons, hrest]
    · have hd : (decide ((pk, pv).1 ≠ k)) = true := by simpa using hp
      simp [eraseKV, hp, List.filter_cons, hd, ih hnd.2]

theorem foldl_eraseKV_eq_filter {α : Type} (ks : List String) :
    ∀ (l : List (String × α)), (l.map Prod.fst).Nodup →
    ks.foldl eraseKV l = l.filter (fun p => decide (p.1 ∉ ks)) := by
  induction ks with
  | nil =>
    intro l _
    simp [List.filter_eq_self]
  | cons k t ih =>
    intro l hnd
    have h1 : List.foldl eraseKV l (k :: t) = t.foldl eraseKV (eraseKV l k) :=
      rfl
    rw [h1, ih (eraseKV l k) (nodup_keys_eraseKV hnd k),
        eraseKV_eq_filter hnd k, List.filter_filter]
    apply List.filter_congr
    intro p _
    by_cases h1 : p.1 = k <;> by_cases h2 : p.1 ∈ t <;>
      simp [h1, h2, List.mem_cons]

theorem lookupKV_filter_none {α : Type} {l : List (String × α)}
    {k : String} (f : String × α → Bool) (h : lookupKV l k = none) :
    lookupKV (l.filter f) k = none := by
  rw [lookupKV_eq_none_iff] at h ⊢
  intro hmem
  obtain ⟨q, hq, hqk⟩ := List.mem_map.mp hmem
  exact h (hqk ▸ List.mem_map_of_mem Prod.fst ((List.filter_sublist l).mem hq))

theorem lookupKV_filter_some {α : Type} {l : List (String × α)}
    (hnd : (l.map Prod.fst).Nodup) {k : String} {v : α}
    (f : String × α → Bool) (h : lookupKV l k = some v) :
    lookupKV (l.filter f) k = if f (k, v) then some v else none := by
  induction l with
  | nil => simp [lookupKV] at h
  | cons p rest ih =>
    obtain ⟨pk, pv⟩ := p
    simp only [List.map_cons, List.nodup_cons] at hnd
    by_cases hp : pk = k
    · subst hp
      have hv : pv = v := by simpa [lookupKV] using h
      subst hv
      by_cases hf : f (pk, pv) = true
      · simp [List.filter_cons, hf, lookupKV]
      · have hnone : lookupKV (rest.filter f) pk = none := by
          apply lookupKV_filter_none
          rw [lookupKV_eq_none_iff]
          exact hnd.1
        simp [List.filter_cons, hf, hnone]
    · have h' : lookupKV rest k = some v := by simpa [lookupKV, hp] using h
      by_cases hf : f (pk, pv) = true
      · simp [List.filter_cons, hf, lookupKV, hp, ih hnd.2 h']
      · simp [List.filter_cons, hf, ih hnd.2 h']

namespace Mem

theorem remove_memory_memories (m : MemoryLink) (k : String) :
    (remove_memory m k).memories = eraseKV m.memories k := rfl

theorem foldl_remove_memory_memories (ks : List String) :
    ∀ m : MemoryLink,
    (ks.foldl remove_memory m).memories = ks.foldl eraseKV m.memories := by
  induction ks with
  | nil => intro m; rfl
  | cons k t ih =>
    intro m
    have h1 : List.foldl remove_memory m (k :: t)
        = t.foldl remove_memory (remove_memory m k) := rfl
    rw [h1, ih (remove_memory m k), remove_memory_memories]
    rfl

theorem cleanup_memories {m : MemoryLink} (now : Nat)
    (hnd : (m.memories.map Prod.fst).Nodup) :
    ((cleanup_expired now m).2).memories
      = m.memories.filter (fun p => !(p.2.is_expired now)) := by
  have h1 : ((cleanup_expired now m).2).memories
      = ((m.memories.filter (fun p => p.2.is_expired now)).map
          Prod.fst).foldl eraseKV m.memories := by
    rw [show (cleanup_expired now m).2
        = ((m.memories.filter (fun p => p.2.is_expired now)).map
            Prod.fst).foldl remove_memory m from rfl,
      foldl_remove_memory_memories]
  rw [h1, foldl_eraseKV_eq_filter _ _ hnd]
  apply List.filter_congr
  intro p hp
  by_cases he : p.2.is_expired now = true
  · have hmem : p.1 ∈ (m.memories.filter
        (fun p => p.2.is_expired now)).map Prod.fst :=
      List.mem_map_of_mem Prod.fst (List.mem_filter.mpr ⟨hp, he⟩)
    simp [hmem, he]
  · have hmem : p.1 ∉ (m.memories.filter
        (fun p => p.2.is_expired now)).map Prod.fst := by
      intro hmem
      obtain ⟨q, hq, hqk⟩ := List.mem_map.mp hmem
      have hq' := List.mem_filter.mp hq
      have heq := eq_of_keys_nodup hnd hq'.1 hp hqk
      rw [heq] at hq'
      exact he hq'.2
    simp [hmem, he]

theorem nodup_keys_cleanup {m : MemoryLink} (now : Nat)
    (hnd : (m.memories.map Prod.fst).Nodup) :
    (((cleanup_expired now m).2).memories.map Prod.fst).Nodup := by
  rw [cleanup_memories now hnd]
  exact ((List.filter_sublist _).map Prod.fst).nodup hnd

theorem liveLookup_cleanup {m : MemoryLink} (now : Nat)
    (hnd : (m.memories.map Prod.fst).Nodup) (k : String) :
    liveLookup now ((cleanup_expired now m).2) k = liveLookup now m k := by
  unfold liveLookup
  rw [cleanup_memories now hnd]
  cases hl : lookupKV m.memories k with
  | none => rw [lookupKV_filter_none _ hl]
  | some e =>
    rw [lookupKV_filter_some hnd _ hl]
    by_cases he : e.is_expired now = true
    · simp [he]
    · simp [he]

theorem store_memories (now : Nat) (m : MemoryLink) (k : String) (v : Val)
    (cat : Option String) (md : List (String × Val)) (ttl : Option Nat) :
    (store now m k v cat md ttl).memories
      = insertKV (if cleanupTriggered m then (cleanup_expired now m).2
          else m).memories k
          { key := k, value := v, metadata := md, created_at := now,
            accessed_at := now, access_count := 0, ttl := ttl } := by
  cases cat <;> rfl

theorem fresh_not_expired (now : Nat) (k : String) (v : Val)
    (md : List (String × Val)) (ttl : Option Nat) :
    MemoryEntry.is_expired now
      { key := k, value := v, metadata := md, created_at := now,
        accessed_at := now, access_count := 0, ttl := ttl } = false := by
  cases ttl with
  | none => rfl
  | some t =>
    simp only [MemoryEntry.is_expired]
    exact decide_eq_false (by omega)

theorem nodup_keys_store {m : MemoryLink}
    (hnd : (m.memories.map Prod.fst).Nodup) (now : Nat) (k : String)
    (v : Val) (cat : Option String) (md : List (String × Val))
    (ttl : Option Nat) :
    ((store now m k v cat md ttl).memories.map Prod.fst).Nodup := by
  rw [store_memories]
  apply nodup_keys_insertKV
  by_cases ht : cleanupTriggered m = true
  · simpa only [if_pos ht] using nodup_keys_cleanup now hnd
  · simpa only [if_neg ht] using hnd

theorem liveLookup_store {m : MemoryLink}
    (hnd : (m.memories.map Prod.fst).Nodup) (now : Nat) (k : String)
    (v : Val) (cat : Option String) (md : List (String × Val))
    (ttl : Option Nat) (k' : String) :
    liveLookup now (store now m k v cat md ttl) k'
      = if k' = k then some (v, md, ttl) else liveLookup now m k' := by
  by_cases hk : k' = k
  · subst hk
    rw [if_pos rfl]
    unfold liveLookup
    rw [store_memories, lookupKV_insert_self]
    simp [fresh_not_expired]
  · rw [if_neg hk]
    have h1 : liveLookup now (store now m k v cat md ttl) k'
        = liveLookup now (if cleanupTriggered m then (cleanup_expired now m).2
            else m) k' := by
      unfold liveLookup
      rw [store_memories, lookupKV_insert_ne _ _ hk]
    rw [h1]
    by_cases ht : cleanupTriggered m = true
    · rw [if_pos ht]
      exact liveLookup_cleanup now hnd k'
    · rw [if_neg ht]

theorem key_of_lookup {m : MemoryLink} (hkc : KeyConsistent m) {k : String}
    {e : MemoryEntry} (h : lookupKV m.memories k = some e) : e.key = k :=
  hkc (k, e) (mem_of_lookupKV h)

theorem recLookup_eq_none_of_not_mem {rs : List ExportRecord} {k : String}
    (h : k ∉ rs.map (fun r => r.key)) : recLookup rs k = none := by
  induction rs with
  | nil => rfl
  | cons r t ih =>
    simp only [List.map_cons, List.mem_cons, not_or] at h
    have hne : ¬ (r.key = k) := fun hh => h.1 hh.symm
    simp only [recLookup, if_neg hne]
    exact ih h.2

theorem exportBody_key {m : MemoryLink} (hkc : KeyConsistent m)
    (now : Nat) {k0 : String} {r : ExportRecord}
    (hb : exportBody now m.memories k0 = some r) : r.key = k0 := by
  cases hl : lookupKV m.memories k0 with
  | none =>
    simp only [exportBody, hl] at hb
    exact Option.noConfusion hb
  | some e =>
    simp only [exportBody, hl] at hb
    by_cases he : e.is_expired now = true
    · rw [if_pos he] at hb
      exact absurd hb (by simp)
    · rw [if_neg he] at hb
      have hr : e.to_dict now = r := by simpa using hb
      rw [← hr]
      exact key_of_lookup hkc hl

theorem recLookup_exportOver_none {m : MemoryLink}
    (hkc : KeyConsistent m) (now : Nat) {ks : List String} {k : String}
    (hk : k ∉ ks) :
    recLookup (ks.filterMap (exportBody now m.memories)) k = none := by
  induction ks with
  | nil => rfl
  | cons k0 t ih =>
    simp only [List.mem_cons, not_or] at hk
    rw [List.filterMap_cons]
    cases hb : exportBody now m.memories k0 with
    | none => exact ih hk.2
    | some r =>
      have hkey : r.key = k0 := exportBody_key hkc now hb
      have hne : ¬ (r.key = k) := by
        rw [hkey]
        exact fun hh => hk.1 hh.symm
      simp only [recLookup, if_neg hne]
      exact ih hk.2

theorem recLookup_exportOver {m : MemoryLink} (hkc : KeyConsistent m)
    (now : Nat) {ks : List String} (hks : ks.Nodup) {k : String}
    (hk : k ∈ ks) :
    recLookup (ks.filterMap (exportBody now m.memories)) k
      = liveLookup now m k := by
  induction ks with
  | nil => simp at hk
  | cons k0 t ih =>
    simp only [List.nodup_cons] at hks
    rw [List.filterMap_cons]
    by_cases hkk : k = k0
    · subst hkk
      cases hb : exportBody now m.memories k with
      | none =>
        have hnone : recLookup (t.filterMap (exportBody now m.memories)) k
            = none := recLookup_exportOver_none hkc now hks.1
        rw [hnone]
        cases hl : lookupKV m.memories k with
        | none => simp only [liveLookup, hl]
        | some e =>
          simp only [exportBody, hl] at hb
          by_cases he : e.is_expired now = true
          · simp only [liveLookup, hl, if_pos he]
          · rw [if_neg he] at hb
            exact absurd hb (by simp)
      | some r =>
        have hkey : r.key = k := exportBody_key hkc now hb
        simp only [recLookup, if_pos hkey]
        cases hl : lookupKV m.memories k with
        | none =>
          simp only [exportBody, hl] at hb
          exact Option.noConfusion hb
        | some e =>
          simp only [exportBody, hl] at hb
          by_cases he : e.is_expired now = true
          · rw [if_pos he] at hb
            exact absurd hb (by simp)
          · rw [if_neg he] at hb
            have hr : e.to_dict now = r := by simpa using hb
            simp only [liveLookup, hl, if_neg he, ← hr]
            rfl
    · rcases List.mem_cons.mp hk with h | h
      · exact absurd h hkk
      · cases hb : exportBody now m.memories k0 with
        | none => exact ih hks.2 h
        | some r =>
          have hkey : r.key = k0 := exportBody_key hkc now hb
          have hne : ¬ (r.key = k) := by
            rw [hkey]
            exact fun hh => hkk hh.symm
          simp only [recLookup, if_neg hne]
          exact ih hks.2 h

theorem export_keys_mem {m : MemoryLink} (hkc : KeyConsistent m)
    (now : Nat) {ks : List String} {r : ExportRecord}
    (h : r ∈ ks.filterMap (exportBody now m.memories)) : r.key ∈ ks := by
  induction ks with
  | nil => simp at h
  | cons k0 t ih =>
    rw [List.filterMap_cons] at h
    cases hb : exportBody now m.memories k0 with
    | none =>
      rw [hb] at h
      exact List.mem_cons_of_mem _ (ih h)
    | some r' =>
      rw [hb] at h
      rcases List.mem_cons.mp h with h | h
      · subst h
        rw [exportBody_key hkc now hb]
        exact List.mem_cons_self _ _
      · exact List.mem_cons_of_mem _ (ih h)

theorem nodup_export_keys {m : MemoryLink} (hkc : KeyConsistent m)
    (now : Nat) {ks : List String} (hks : ks.Nodup) :
    ((ks.filterMap (exportBody now m.memories)).map
      (fun r => r.key)).Nodup := by
  induction ks with
  | nil => simp
  | cons k0 t ih =>
    simp only [List.nodup_cons] at hks
    rw [List.filterMap_cons]
    cases hb : exportBody now m.memories k0 with
    | none => exact ih hks.2
    | some r =>
      rw [List.map_cons, List.nodup_cons]
      refine ⟨?_, ih hks.2⟩
      intro hmem
      obtain ⟨q, hq, hqk⟩ := List.mem_map.mp hmem
      have : q.key ∈ t := export_keys_mem hkc now hq
      rw [hqk, exportBody_key hkc now hb] at this
      exact hks.1 this

theorem import_fold_count (rs : List ExportRecord) (now : Nat) :
    ∀ (n : Nat) (m : MemoryLink),
    (rs.foldl (fun acc r =>
      (acc.1 + 1, store now acc.2 r.key r.value none r.metadata r.ttl))
      (n, m)).1 = n + rs.length := by
  induction rs with
  | nil => intro n m; simp
  | cons r t ih =>
    intro n m
    have h1 : List.foldl (fun acc r =>
        (acc.1 + 1, store now acc.2 r.key r.value none r.metadata r.ttl))
        (n, m) (r :: t)
        = t.foldl (fun acc r =>
            (acc.1 + 1, store now acc.2 r.key r.value none r.metadata r.ttl))
          (n + 1, store now m r.key r.value none r.metadata r.ttl) := rfl
    rw [h1, ih, List.length_cons]
    omega

theorem liveLookup_import_fold (now : Nat) (rs : List ExportRecord) :
    ∀ (n : Nat) (m : MemoryLink), (m.memories.map Prod.fst).Nodup →
    (rs.map (fun r => r.key)).Nodup → ∀ k,
    liveLookup now ((rs.foldl (fun acc r =>
      (acc.1 + 1, store now acc.2 r.key r.value none r.metadata r.ttl))
      (n, m)).2) k
      = match recLookup rs k with
        | some x => some x
        | none => liveLookup now m k := by
  induction rs with
  | nil =>
    intro n m _ _ k
    rfl
  | cons r t ih =>
    intro n m hnd hrs k
    simp only [List.map_cons, List.nodup_cons] at hrs
    have h1 : List.foldl (fun acc r =>
        (acc.1 + 1, store now acc.2 r.key r.value none r.metadata r.ttl))
        (n, m) (r :: t)
        = t.foldl (fun acc r =>
            (acc.1 + 1, store now acc.2 r.key r.value none r.metadata r.ttl))
          (n + 1, store now m r.key r.value none r.metadata r.ttl) := rfl
    rw [h1, ih (n + 1) _ (nodup_keys_store hnd now _ _ none _ _) hrs.2 k]
    by_cases hkk : r.key = k
    · subst hkk
      have hnone : recLookup t r.key = none :=
        recLookup_eq_none_of_not_mem hrs.1
      have hrec : recLookup (r :: t) r.key
          = some (r.value, r.metadata, r.ttl) := by
        simp [recLookup]
      rw [hnone, hrec]
      show liveLookup now (store now m r.key r.value none r.metadata r.ttl)
          r.key = some (r.value, r.metadata, r.ttl)
      rw [liveLookup_store hnd now _ _ none _ _ r.key, if_pos rfl]
    · simp only [recLookup, if_neg hkk]
      cases hr : recLookup t k with
      | some x => simp only [hr]
      | none =>
        simp only [hr]
        have hne : ¬ (k = r.key) := fun hh => hkk hh.symm
        rw [liveLookup_store hnd now _ _ none _ _ k, if_neg hne]

theorem keys_map_snd {α β : Type} (l : List (String × α)) (g : α → β) :
    (l.map (fun p => (p.1, g p.2))).map Prod.fst = l.map Prod.fst := by
  induction l with
  | nil => rfl
  | cons p rest ih => simp [ih]

theorem wf_init (agent_id : String) (max_entries : Nat) :
    WF (init agent_id max_entries) := by
  refine ⟨List.nodup_nil, List.nodup_nil, ?_⟩
  intro cat keys hc
  simp [init, lookupKV] at hc

theorem wf_remove_memory {m : MemoryLink} (h : WF m) (k : String) :
    WF (remove_memory m k) := by
  obtain ⟨hmem, hcat, hinv⟩ := h
  refine ⟨nodup_keys_eraseKV hmem k, ?_, ?_⟩
  · show ((m.categories.map
      (fun p => (p.1, removeFirst p.2 k))).map Prod.fst).Nodup
    rw [keys_map_snd m.categories (fun keys => removeFirst keys k)]
    exact hcat
  · intro cat keys' hc
    have hc' : lookupKV (m.categories.map
        (fun p => (p.1, removeFirst p.2 k))) cat = some keys' := hc
    rw [lookupKV_map_snd m.categories (fun keys => removeFirst keys k) cat]
      at hc'
    cases hl : lookupKV m.categories cat with
    | none =>
      rw [hl] at hc'
      exact Option.noConfusion hc'
    | some keys =>
      rw [hl] at hc'
      have hkeys : removeFirst keys k = keys' := by simpa using hc'
      obtain ⟨hnd0, hmem0⟩ := hinv cat keys hl
      subst hkeys
      refine ⟨nodup_removeFirst hnd0 k, ?_⟩
      intro k' hk'
      have hne : k' ≠ k := ne_of_mem_removeFirst hnd0 hk'
      have hk'' : k' ∈ keys := mem_of_mem_removeFirst hk'
      show (lookupKV (eraseKV m.memories k) k').isSome = true
      rw [lookupKV_erase_ne _ hne]
      exact hmem0 k' hk''

theorem wf_foldl_remove (ks : List String) :
    ∀ {m : MemoryLink}, WF m → WF (ks.foldl remove_memory m) := by
  induction ks with
  | nil => intro m h; exact h
  | cons k t ih =>
    intro m h
    exact ih (wf_remove_memory h k)

theorem wf_cleanup {m : MemoryLink} (h : WF m) (now : Nat) :
    WF ((cleanup_expired now m).2) :=
  wf_foldl_remove _ h

theorem wf_insert_entry {m : MemoryLink} (h : WF m) (k : String)
    (e : MemoryEntry) :
    WF { m with memories := insertKV m.memories k e } := by
  obtain ⟨hmem, hcat, hinv⟩ := h
  refine ⟨nodup_keys_insertKV hmem k e, hcat, ?_⟩
  intro cat keys hc
  obtain ⟨hnd0, hmem0⟩ := hinv cat keys hc
  exact ⟨hnd0, fun k' hk' => memberKV_insertKV (hmem0 k' hk') k e⟩

theorem wf_cat_set {m : MemoryLink} (h : WF m) (c : String)
    (keys' : List String) (hnd' : keys'.Nodup)
    (hmem' : ∀ k ∈ keys', memberKV m.memories k = true) :
    WF { m with categories := insertKV m.categories c keys' } := by
  obtain ⟨hmem, hcat, hinv⟩ := h
  refine ⟨hmem, nodup_keys_insertKV hcat c keys', ?_⟩
  intro cat0 keys0 hc0
  have hc0' : lookupKV (insertKV m.categories c keys') cat0
      = some keys0 := hc0
  by_cases hcc : cat0 = c
  · subst hcc
    rw [lookupKV_insert_self] at hc0'
    have hkeys := Option.some.inj hc0'
    subst hkeys
    exact ⟨hnd', fun k hk => hmem' k hk⟩
  · rw [lookupKV_insert_ne _ _ hcc] at hc0'
    exact hinv cat0 keys0 hc0'

theorem wf_store_aux {m2 : MemoryLink} (h2 : WF m2) (c k : String)
    (hk : memberKV m2.memories k = true) :
    WF { m2 with categories := insertKV m2.categories c
                   (if k ∈ (lookupKV m2.categories c).getD []
                    then (lookupKV m2.categories c).getD []
                    else (lookupKV m2.categories c).getD [] ++ [k]) } := by
  have hkeys : ((lookupKV m2.categories c).getD []).Nodup
      ∧ ∀ k' ∈ (lookupKV m2.categories c).getD [],
        memberKV m2.memories k' = true := by
    cases hl : lookupKV m2.categories c with
    | none => simp
    | some ks0 =>
      have hks0 := h2.2.2 c ks0 hl
      simpa using hks0
  apply wf_cat_set h2 c
  · by_cases hkin : k ∈ (lookupKV m2.categories c).getD []
    · rw [if_pos hkin]
      exact hkeys.1
    · rw [if_neg hkin, List.nodup_append]
      refine ⟨hkeys.1, List.nodup_singleton k, ?_⟩
      intro a ha hb
      rw [List.mem_singleton] at hb
      exact hkin (hb ▸ ha)
  · intro k' hk'
    by_cases hkin : k ∈ (lookupKV m2.categories c).getD []
    · rw [if_pos hkin] at hk'
      exact hkeys.2 k' hk'
    · rw [if_neg hkin] at hk'
      rcases List.mem_append.mp hk' with h' | h'
      · exact hkeys.2 k' h'
      · exact (List.mem_singleton.mp h') ▸ hk

theorem wf_store {m : MemoryLink} (h : WF m) (now : Nat) (k : String)
    (v : Val) (cat : Option String) (md : List (String × Val))
    (ttl : Option Nat) : WF (store now m k v cat md ttl) := by
  have h1 : WF (if cleanupTriggered m then (cleanup_expired now m).2
      else m) := by
    by_cases ht : cleanupTriggered m = true
    · rw [if_pos ht]
      exact wf_cleanup h now
    · rw [if_neg ht]
      exact h
  have h2 := wf_insert_entry h1 k
    { key := k, value := v, metadata := md, created_at := now,
      accessed_at := now, access_count := 0, ttl := ttl }
  cases cat with
  | none => exact h2
  | some c =>
    have hk : memberKV (insertKV (if cleanupTriggered m
        then (cleanup_expired now m).2 else m).memories k
        { key := k, value := v, metadata := md, created_at := now,
          accessed_at := now, access_count := 0, ttl := ttl }) k = true := by
      show (lookupKV _ k).isSome = true
      rw [lookupKV_insert_self]
      rfl
    exact wf_store_aux h2 c k hk

theorem wf_accessEntry {m : MemoryLink} (h : WF m) (now : Nat) (k : String)
    (e : MemoryEntry) : WF (accessEntry now m k e) :=
  wf_insert_entry h k _

theorem wf_retrieve {m : MemoryLink} (h : WF m) (now : Nat) (k : String) :
    WF (retrieve now m k).2 := by
  cases hl : lookupKV m.memories k with
  | none => simpa only [retrieve, hl] using h
  | some e =>
    by_cases he : e.is_expired now = true
    · simpa only [retrieve, hl, if_pos he] using wf_remove_memory h k
    · simpa only [retrieve, hl, if_neg he] using wf_accessEntry h now k e

theorem wf_rbc_fold (now : Nat) (ks : List String) :
    ∀ (acc : List (String × Val) × MemoryLink), WF acc.2 →
    WF ((ks.foldl (fun acc k =>
      match retrieve now acc.2 k with
      | (some v, st) => (insertKV acc.1 k v, st)
      | (none, st) => (acc.1, st)) acc)).2 := by
  induction ks with
  | nil => intro acc h; exact h
  | cons k0 t ih =>
    intro acc h
    apply ih
    have hstep : (match retrieve now acc.2 k0 with
        | (some v, st) => (insertKV acc.1 k0 v, st)
        | (none, st) => (acc.1, st)).2 = (retrieve now acc.2 k0).2 := by
      rcases hr : retrieve now acc.2 k0 with ⟨o, st⟩
      cases o <;> rfl
    rw [hstep]
    exact wf_retrieve h now k0

theorem wf_retrieve_by_category {m : MemoryLink} (h : WF m) (now : Nat)
    (cat : String) : WF (retrieve_by_category now m cat).2 := by
  cases hl : lookupKV m.categories cat with
  | none => simpa only [retrieve_by_category, hl] using h
  | some keys =>
    simpa only [retrieve_by_category, hl] using wf_rbc_fold now keys ([], m) h

theorem wf_searchStep {acc : List (String × Val) × MemoryLink}
    (h : WF acc.2) (now : Nat) (q : String) (k : String) :
    WF (searchStep now q acc k).2 := by
  cases hl : lookupKV acc.2.memories k with
  | none => simpa only [searchStep, hl] using h
  | some e =>
    by_cases he : e.is_expired now = true
    · simpa only [searchStep, hl, if_pos he] using wf_remove_memory h k
    · by_cases h1 : strContainsCI q k = true
      · simpa only [searchStep, hl, if_neg he, if_pos h1] using
          wf_accessEntry h now k e
      · by_cases h2 : strContainsCI q e.value = true
        · simpa only [searchStep, hl, if_neg he, if_neg h1, if_pos h2] using
            wf_accessEntry h now k e
        · simpa only [searchStep, hl, if_neg he, if_neg h1, if_neg h2] using h

theorem wf_search_fold (now : Nat) (q : String) (ks : List String) :
    ∀ (acc : List (String × Val) × MemoryLink), WF acc.2 →
    WF ((ks.foldl (searchStep now q) acc)).2 := by
  induction ks with
  | nil => intro acc h; exact h
  | cons k0 t ih =>
    intro acc h
    exact ih _ (wf_searchStep h now q k0)

theorem wf_search {m : MemoryLink} (h : WF m) (now : Nat) (q : String)
    (cat : Option String) : WF (search now m q cat).2 := by
  cases cat with
  | none => exact wf_search_fold now q _ ([], m) h
  | some c =>
    cases hl : lookupKV m.categories c with
    | none => simpa only [search, hl] using wf_search_fold now q _ ([], m) h
    | some keys => simpa only [search, hl] using wf_search_fold now q _ ([], m) h

theorem wf_update {m : MemoryLink} (h : WF m) (now : Nat) (k : String)
    (v : Val) (md : Option (List (String × Val))) :
    WF (update now m k v md).2 := by
  cases hl : lookupKV m.memories k with
  | none => simpa only [update, hl] using h
  | some e =>
    by_cases he : e.is_expired now = true
    · simpa only [update, hl, if_pos he] using wf_remove_memory h k
    · simpa only [update, hl, if_neg he] using wf_insert_entry h k _

theorem wf_delete {m : MemoryLink} (h : WF m) (k : String) :
    WF (delete m k).2 := by
  by_cases hm : memberKV m.memories k = true
  · simpa only [delete, hm, if_true] using wf_remove_memory h k
  · simp only [delete]
    rw [if_neg (by simpa using hm)]
    exact h

theorem wf_cc_fold (ks : List String) :
    ∀ (acc : Nat × MemoryLink), WF acc.2 →
    WF ((ks.foldl (fun acc k =>
      match delete acc.2 k with
      | (true, st) => (acc.1 + 1, st)
      | (false, st) => (acc.1, st)) acc)).2 := by
  induction ks with
  | nil => intro acc h; exact h
  | cons k0 t ih =>
    intro acc h
    apply ih
    have hstep : (match delete acc.2 k0 with
        | (true, st) => (acc.1 + 1, st)
        | (false, st) => (acc.1, st)).2 = (delete acc.2 k0).2 := by
      rcases hd : delete acc.2 k0 with ⟨b, st⟩
      cases b <;> rfl
    rw [hstep]
    exact wf_delete h k0

theorem wf_clear_category {m : MemoryLink} (h : WF m) (cat : String) :
    WF (clear_category m cat).2 := by
  cases hl : lookupKV m.categories cat with
  | none => simpa only [clear_category, hl] using h
  | some keys =>
    have hfold := wf_cc_fold keys (0, m) h
    simp only [clear_category, hl]
    obtain ⟨hmem, hcat, hinv⟩ := hfold
    refine ⟨hmem, nodup_keys_eraseKV hcat cat, ?_⟩
    intro cat0 keys0 hc0
    have hc0' : lookupKV (eraseKV (keys.foldl (fun acc k =>
        match delete acc.2 k with
        | (true, st) => (acc.1 + 1, st)
        | (false, st) => (acc.1, st)) (0, m)).2.categories cat) cat0
        = some keys0 := hc0
    by_cases hcc : cat0 = cat
    · subst hcc
      rw [lookupKV_erase_self hcat] at hc0'
      exact Option.noConfusion hc0'
    · rw [lookupKV_erase_ne _ hcc] at hc0'
      exact hinv cat0 keys0 hc0'

theorem wf_import_fold (now : Nat) (rs : List ExportRecord) :
    ∀ (acc : Nat × MemoryLink), WF acc.2 →
    WF ((rs.foldl (fun acc r =>
      (acc.1 + 1, store now acc.2 r.key r.value none r.metadata r.ttl))
      acc)).2 := by
  induction rs with
  | nil => intro acc h; exact h
  | cons r t ih =>
    intro acc h
    exact ih _ (wf_store h now r.key r.value none r.metadata r.ttl)

theorem wf_import {m : MemoryLink} (h : WF m) (now : Nat)
    (rs : List ExportRecord) : WF (import_memories now m rs).2 :=
  wf_import_fold now rs (0, m) h

theorem cleanup_no_expired {m : MemoryLink} (now : Nat)
    (h : ∀ p ∈ m.memories, p.2.is_expired now = false) :
    (cleanup_expired now m).2 = m := by
  have hnil : m.memories.filter (fun p => p.2.is_expired now) = [] := by
    rw [List.filter_eq_nil_iff]
    intro p hp
    simp [h p hp]
  show ((m.memories.filter (fun p => p.2.is_expired now)).map
    Prod.fst).foldl remove_memory m = m
  rw [hnil]
  rfl

theorem ttl_none_not_expired {e : MemoryEntry} (h : e.ttl = none)
    (now : Nat) : e.is_expired now = false := by
  simp [MemoryEntry.is_expired, h]

theorem store_ttl_none_memories {m : MemoryLink}
    (hall : ∀ p ∈ m.memories, p.2.ttl = none) (now : Nat) (k : String)
    (v : Val) :
    (store now m k v none [] none).memories
      = insertKV m.memories k
          { key := k, value := v, metadata := [], created_at := now,
            accessed_at := now, access_count := 0, ttl := none } := by
  rw [store_memories]
  by_cases ht : cleanupTriggered m = true
  · rw [if_pos ht, cleanup_no_expired now
      (fun p hp => ttl_none_not_expired (hall p hp) now)]
  · rw [if_neg ht]

theorem storeAll_length (now : Nat) (v : Val) (ks : List String) :
    ∀ m : MemoryLink, (∀ p ∈ m.memories, p.2.ttl = none) →
    (∀ k ∈ ks, memberKV m.memories k = false) → ks.Nodup →
    (Rippley.storeAll now v ks m).memories.length
      = m.memories.length + ks.length := by
  induction ks with
  | nil =>
    intro m _ _ _
    simp [Rippley.storeAll]
  | cons k0 t ih =>
    intro m hall hfresh hnd
    simp only [List.nodup_cons] at hnd
    have hstep : (Rippley.storeAll now v (k0 :: t) m)
        = Rippley.storeAll now v t (store now m k0 v none [] none) := rfl
    rw [hstep]
    have hmem0 : (store now m k0 v none [] none).memories
        = insertKV m.memories k0
            { key := k0, value := v, metadata := [], created_at := now,
              accessed_at := now, access_count := 0, ttl := none } :=
      store_ttl_none_memories hall now k0 v
    have hall' : ∀ p ∈ (store now m k0 v none [] none).memories,
        p.2.ttl = none := by
      intro p hp
      rw [hmem0] at hp
      rcases mem_insertKV hp with h' | h'
      · exact hall p h'
      · rw [h']
    have hfresh' : ∀ k ∈ t,
        memberKV (store now m k0 v none [] none).memories k = false := by
      intro k hk
      have hne : k ≠ k0 := fun hh => hnd.1 (hh ▸ hk)
      show (lookupKV _ k).isSome = false
      rw [hmem0, lookupKV_insert_ne _ _ hne]
      exact hfresh k (List.mem_cons_of_mem _ hk)
    rw [ih _ hall' hfresh' hnd.2, hmem0,
      length_insertKV_of_not_member (hfresh k0 (List.mem_cons_self _ _)) _,
      List.length_cons]
    omega

theorem searchStep_fst_mem {now : Nat} {q : String}
    {acc : List (String × Val) × MemoryLink} {k0 k : String} {v : Val}
    (h : (k, v) ∈ (searchStep now q acc k0).1) :
    (k, v) ∈ acc.1 ∨ k = k0 := by
  cases hl : lookupKV acc.2.memories k0 with
  | none =>
    simp only [searchStep, hl] at h
    exact Or.inl h
  | some e =>
    simp only [searchStep, hl] at h
    by_cases he : e.is_expired now = true
    · rw [if_pos he] at h
      exact Or.inl h
    · rw [if_neg he] at h
      by_cases h1 : strContainsCI q k0 = true
      · rw [if_pos h1] at h
        rcases mem_insertKV h with h' | h'
        · exact Or.inl h'
        · exact Or.inr (congrArg Prod.fst h')
      · rw [if_neg h1] at h
        by_cases h2 : strContainsCI q e.value = true
        · rw [if_pos h2] at h
          rcases mem_insertKV h with h' | h'
          · exact Or.inl h'
          · exact Or.inr (congrArg Prod.fst h')
        · rw [if_neg h2] at h
          exact Or.inl h

theorem search_fold_mem (now : Nat) (q : String) (ks : List String) :
    ∀ (acc : List (String × Val) × MemoryLink) (k : String) (v : Val),
    (k, v) ∈ (ks.foldl (searchStep now q) acc).1 →
    (k, v) ∈ acc.1 ∨ k ∈ ks := by
  induction ks with
  | nil =>
    intro acc k v h
    exact Or.inl h
  | cons k0 t ih =>
    intro acc k v h
    have h1 : List.foldl (searchStep now q) acc (k0 :: t)
        = t.foldl (searchStep now q) (searchStep now q acc k0) := rfl
    rw [h1] at h
    rcases ih _ k v h with h' | h'
    · rcases searchStep_fst_mem h' with h'' | h''
      · exact Or.inl h''
      · exact Or.inr (by rw [h'']; exact List.mem_cons_self _ _)
    · exact Or.inr (List.mem_cons_of_mem _ h')

theorem wf_reachable {m : MemoryLink} (h : Reachable m) : WF m := by
  induction h with
  | init agent_id max_entries => exact wf_init agent_id max_entries
  | store hm now k v cat md ttl ih => exact wf_store ih now k v cat md ttl
  | retrieve hm now k ih => exact wf_retrieve ih now k
  | retrieve_by_category hm now cat ih => exact wf_retrieve_by_category ih now cat
  | search hm now q cat ih => exact wf_search ih now q cat
  | update hm now k v md ih => exact wf_update ih now k v md
  | delete hm k ih => exact wf_delete ih k
  | clear_category hm cat ih => exact wf_clear_category ih cat
  | import_memories hm now rs ih => exact wf_import ih now rs

theorem store_categories_some (now : Nat) (m : MemoryLink) (k : String)
    (v : Val) (c : String) (md : List (String × Val)) (ttl : Option Nat)
    (htrig : cleanupTriggered m = false) :
    (store now m k v (some c) md ttl).categories
      = insertKV m.categories c
          (if k ∈ (lookupKV m.categories c).getD []
           then (lookupKV m.categories c).getD []
           else (lookupKV m.categories c).getD [] ++ [k]) := by
  simp only [store, htrig, Bool.false_eq_true, if_false]

end Mem

/-! ## Claims -/

/-- C1: the claim states that for a scheduler with concurrency bound K the
number of RUNNING tasks never exceeds K. The code violates it: `run()`'s
capacity check reads `running_tasks`, which a dispatched coroutine only
updates once the event loop starts it, so one dispatch pass drains the
whole queue and every spawned task then enters `RUNNING`. This theorem
exhibits a reachable state with bound K = 1 in which 2 tasks are
simultaneously `RUNNING`. -/
theorem C1_running_exceeds_bound :
    Sched.Reach c1_state ∧ c1_state.max_concurrent_tasks = 1
    ∧ Sched.runningStatusCount c1_state = 2 := by
  refine ⟨?_, rfl, by decide⟩
  exact Sched.Reach.start (Sched.Reach.start (Sched.Reach.dispatch
    (Sched.Reach.add (Sched.Reach.add (Sched.Reach.init 1) 0 "t1" true)
      0 "t2" true)) 1) 1

/-- C2 counterexample: after storing key "k" under category "alpha" and
then re-storing it under category "beta", the key is still indexed under
"alpha" as well — refuting the claim that a key belongs only to the
category it was last stored with. -/
theorem C2_counterexample :
    lookupKV c2_state.categories "alpha" = some ["k"]
    ∧ lookupKV c2_state.categories "beta" = some ["k"] :=
  ⟨by decide, by decide⟩

/-- C2 (amended): storing a key under a category adds it to that
category's index but removes nothing: when the pre-insert cleanup does not
run, every other category's index is left verbatim, so a key re-stored
under a new category belongs to both old and new categories. -/
theorem C2_amended_store_accumulates_categories (now : Nat)
    (m : Mem.MemoryLink) (k : String) (v : Val) (c : String)
    (md : List (String × Val)) (ttl : Option Nat)
    (htrig : Mem.cleanupTriggered m = false) :
    k ∈ (lookupKV (Mem.store now m k v (some c) md ttl).categories c).getD []
    ∧ ∀ c' ks', c' ≠ c → lookupKV m.categories c' = some ks' →
        lookupKV (Mem.store now m k v (some c) md ttl).categories c'
          = some ks' := by
  constructor
  · rw [Mem.store_categories_some now m k v c md ttl htrig,
      lookupKV_insert_self, Option.getD_some]
    by_cases hkin : k ∈ (lookupKV m.categories c).getD []
    · rw [if_pos hkin]
      exact hkin
    · rw [if_neg hkin]
      exact List.mem_append.mpr (Or.inr (List.mem_singleton.mpr rfl))
  · intro c' ks' hne hl
    rw [Mem.store_categories_some now m k v c md ttl htrig,
      lookupKV_insert_ne _ _ hne]
    exact hl

/-- Witness for C2's amended theorem, at the concrete two-store scenario. -/
theorem C2_witness :
    ("k" ∈ (lookupKV c2_state.categories "beta").getD [])
    ∧ lookupKV c2_state.categories "alpha" = some ["k"] :=
  ⟨(C2_amended_store_accumulates_categories 0 c2_pre "k" "v2" "beta" []
      none (by decide)).1,
   (C2_amended_store_accumulates_categories 0 c2_pre "k" "v2" "beta" []
      none (by decide)).2 "alpha" ["k"] (by decide) (by decide)⟩

/-- C3 counterexample: in the claimed scenario (max_entries = 10, seven
ttl = 1 entries stored at time 0, one more non-expiring entry at time 2)
the store holds 8 entries afterwards, not exactly 1: the trigger compares
the total entry count (7) with 0.8 × 10 = 8, so no purge runs. -/
theorem C3_counterexample :
    c3_seven.memories.length = 8 ∧ c3_seven.memories.length ≠ 1 :=
  ⟨by decide, by decide⟩

/-- C3 (amended): the purge trigger compares `len(self.memories)` — the
TOTAL entry count, expired entries included — against
cleanup_threshold × max_entries; whenever it fires, every expired entry
(other than the one being overwritten) is gone from the mapping after the
store. In the scenario adjusted to store eight ttl = 1 entries first, the
ninth store triggers the purge and leaves exactly 1 entry. -/
theorem C3_amended_total_count_trigger :
    (∀ (now : Nat) (m : Mem.MemoryLink) (k : String) (v : Val)
      (cat : Option String) (md : List (String × Val)) (ttl : Option Nat)
      (k' : String) (e' : Mem.MemoryEntry),
      (m.memories.map Prod.fst).Nodup →
      4 * m.max_entries ≤ 5 * m.memories.length →
      k' ≠ k →
      lookupKV m.memories k' = some e' →
      e'.is_expired now = true →
      lookupKV (Mem.store now m k v cat md ttl).memories k' = none)
    ∧ c3_eight.memories.length = 1
    ∧ lookupKV c3_eight.memories "k9"
        = some { key := "k9", value := "v", metadata := [], created_at := 2,
                 accessed_at := 2, access_count := 0, ttl := none } := by
  refine ⟨?_, by decide, by decide⟩
  intro now m k v cat md ttl k' e' hnd htrig hne hl he
  have ht : Mem.cleanupTriggered m = true := by
    simpa [Mem.cleanupTriggered] using htrig
  rw [Mem.store_memories, if_pos ht, lookupKV_insert_ne _ _ hne,
    Mem.cleanup_memories now hnd, lookupKV_filter_some hnd _ hl]
  simp [he]

/-- Witness for C3's amended theorem: after the triggering ninth store,
the expired key "k1" is gone from the mapping. -/
theorem C3_witness : lookupKV c3_eight.memories "k1" = none :=
  C3_amended_total_count_trigger.1 2 c3_eight_pre "k9" "v" none [] none "k1"
    { key := "k1", value := "v", metadata := [], created_at := 0,
      accessed_at := 0, access_count := 0, ttl := some 1 }
    (by decide) (by decide) (by decide) (by decide) (by decide)

/-- C4 counterexample: submitting id "t1" to a runner whose completed set
already holds "t1" does not fail — a fresh PENDING task is appended and
the state changes — refuting the claimed `DuplicateTaskError` rejection. -/
theorem C4_counterexample :
    (TR.add_task 1 c4_tr "t1" "echo" "p" none).1.status
      = TR.TaskStatus.pending
    ∧ (TR.add_task 1 c4_tr "t1" "echo" "p" none).2.task_queue.length = 1
    ∧ (TR.add_task 1 c4_tr "t1" "echo" "p" none).2 ≠ c4_tr := by
  refine ⟨rfl, rfl, ?_⟩
  intro hEq
  have hlen := congrArg (fun s => s.task_queue.length) hEq
  simp [TR.add_task, c4_tr] at hlen

/-- C4 (amended): `add_task` performs no duplicate-id check and cannot
fail: for every state — including one already holding the id in
pending/running/completed — it appends a fresh `PENDING` task with the
given id to the queue, returns it, and leaves every other component of the
state unchanged. -/
theorem C4_amended_add_task_always_appends (now : Nat)
    (tr : TR.TaskRunner) (id ty : String) (p : Val)
    (cb : Option (Val → Except String Unit)) :
    (TR.add_task now tr id ty p cb).1.task_id = id
    ∧ (TR.add_task now tr id ty p cb).1.status = TR.TaskStatus.pending
    ∧ (TR.add_task now tr id ty p cb).2.task_queue
      = tr.task_queue ++ [(TR.add_task now tr id ty p cb).1]
    ∧ (TR.add_task now tr id ty p cb).2.running_tasks = tr.running_tasks
    ∧ (TR.add_task now tr id ty p cb).2.completed_tasks = tr.completed_tasks
    ∧ (TR.add_task now tr id ty p cb).2.task_handlers = tr.task_handlers
    ∧ (TR.add_task now tr id ty p cb).2.max_concurrent_tasks
      = tr.max_concurrent_tasks :=
  ⟨rfl, rfl, rfl, rfl, rfl, rfl, rfl⟩

/-- C5 counterexample: the echo handler returns "p", the callback raises,
and the task ends with status `FAILED` — yet `get_task_result` returns
`some "p"`, refuting the claim that a value is returned only for
`COMPLETED` tasks. -/
theorem C5_counterexample :
    (lookupKV (TR.execute_task 1 c5_tr c5_task).completed_tasks "t1").map
        TR.Task.status = some TR.TaskStatus.failed
    ∧ TR.get_task_result (TR.execute_task 1 c5_tr c5_task) "t1"
      = some "p" :=
  ⟨rfl, rfl⟩

/-- C5 (amended): `get_task_result` returns the recorded `result` field of
any task in the completed set regardless of terminal status. In
particular, when the handler returns `r` and the callback then raises, the
task is recorded `FAILED` but the query returns `some r` — the claim's
None-for-FAILED behaviour fails exactly in this callback case. -/
theorem C5_amended_result_after_callback_failure (now : Nat)
    (tr : TR.TaskRunner) (task : TR.Task) (h : Val → Except String Val)
    (r : Val) (cb : Val → Except String Unit) (e : String)
    (hh : lookupKV tr.task_handlers task.task_type = some h)
    (hr : h task.payload = Except.ok r)
    (hcb : task.callback = some cb)
    (hce : cb r = Except.error e) :
    TR.get_task_result (TR.execute_task now tr task) task.task_id = some r
    ∧ (lookupKV (TR.execute_task now tr task).completed_tasks
        task.task_id).map TR.Task.status = some TR.TaskStatus.failed := by
  have hcomp : (TR.execute_task now tr task).completed_tasks
      = insertKV tr.completed_tasks task.task_id
          { task with status := TR.TaskStatus.failed,
                      started_at := some now, result := some r,
                      completed_at := some now, error := some e } := by
    simp only [TR.execute_task, TR.tryBody, hh, hr, hcb, hce]
  constructor
  · simp only [TR.get_task_result, hcomp, lookupKV_insert_self]
  · rw [hcomp, lookupKV_insert_self]
    rfl

/-- Witness for C5's amended theorem at the concrete echo/boom scenario. -/
theorem C5_witness :
    TR.get_task_result (TR.execute_task 1 c5_tr c5_task) "t1" = some "p"
    ∧ (lookupKV (TR.execute_task 1 c5_tr c5_task).completed_tasks
        "t1").map TR.Task.status = some TR.TaskStatus.failed :=
  C5_amended_result_after_callback_failure 1 c5_tr c5_task
    (fun v => Except.ok v) "p" (fun _ => Except.error "boom") "boom"
    rfl rfl rfl rfl

/-- C6 counterexample: with key "k" stored UNCATEGORISED, a search
restricted to the unknown category "nosuch" still returns "k" — the
`.get(category, self.memories.keys())` fallback scans the whole store —
refuting the claim that only keys indexed under the given category can be
returned. -/
theorem C6_counterexample :
    lookupKV c6_state.categories "nosuch" = none
    ∧ (Mem.search 0 c6_state "k" (some "nosuch")).1 = [("k", "v")] :=
  ⟨by decide, by decide⟩

/-- C6 (amended): when the given category EXISTS in the category index,
`search` iterates only that category's keys, so every returned key belongs
to the category's index list; for a category with no index entry the code
falls back to scanning the whole store. -/
theorem C6_amended_search_restricted_to_existing_category (now : Nat)
    (m : Mem.MemoryLink) (q cat : String) (keys : List String)
    (hc : lookupKV m.categories cat = some keys) (k : String) (v : Val)
    (hkv : (k, v) ∈ (Mem.search now m q (some cat)).1) : k ∈ keys := by
  have hs : Mem.search now m q (some cat)
      = keys.foldl (Mem.searchStep now q) ([], m) := by
    simp only [Mem.search, hc]
  rw [hs] at hkv
  rcases Mem.search_fold_mem now q keys ([], m) k v hkv with h' | h'
  · simp at h'
  · exact h'

/-- Witness for C6's amended theorem at a concrete categorised store. -/
theorem C6_witness :
    lookupKV c6_cat_state.categories "c" = some ["k"]
    ∧ ("k" : String) ∈ ["k"] :=
  ⟨by decide,
   C6_amended_search_restricted_to_existing_category 0 c6_cat_state "k" "c"
     ["k"] (by decide) "k" "v" (by decide)⟩

/-- C7: when a task's handler raises with description `e`, `execute_task`
records terminal status `FAILED` with `error = e`, stamps `completed_at`,
leaves `result` untouched (the callback is never invoked: the recorded
outcome is the same for every callback value, as the universally
quantified `task.callback` shows), moves the task into the completed set
and out of the running set, and — being a total function — never
propagates the exception. -/
theorem C7_handler_failure (now : Nat) (tr : TR.TaskRunner)
    (task : TR.Task) (h : Val → Except String Val) (e : String)
    (hh : lookupKV tr.task_handlers task.task_type = some h)
    (he : h task.payload = Except.error e)
    (hnd : (tr.running_tasks.map Prod.fst).Nodup) :
    (lookupKV (TR.execute_task now tr task).completed_tasks
        task.task_id).map
        (fun t => (t.status, t.result, t.error, t.started_at,
          t.completed_at))
      = some (TR.TaskStatus.failed, task.result, some e, some now,
          some now)
    ∧ lookupKV (TR.execute_task now tr task).running_tasks task.task_id
      = none := by
  have hcomp : (TR.execute_task now tr task).completed_tasks
      = insertKV tr.completed_tasks task.task_id
          { task with status := TR.TaskStatus.failed,
                      started_at := some now, error := some e,
                      completed_at := some now } := by
    simp only [TR.execute_task, TR.tryBody, hh, he]
  have hrun : (TR.execute_task now tr task).running_tasks
      = eraseKV (insertKV tr.running_tasks task.task_id
          { task with status := TR.TaskStatus.running,
                      started_at := some now }) task.task_id := by
    simp only [TR.execute_task, TR.tryBody, hh, he]
  constructor
  · rw [hcomp, lookupKV_insert_self]
    rfl
  · rw [hrun, eraseKV_insertKV, lookupKV_erase_self hnd]

/-- Witness for C7 at a concrete failing-handler scenario (the task even
carries a callback, which is not invoked). -/
theorem C7_witness :
    (lookupKV (TR.execute_task 3 c7_tr c7_task).completed_tasks
        "t2").map
        (fun t => (t.status, t.result, t.error, t.started_at,
          t.completed_at))
      = some (TR.TaskStatus.failed, none, some "err", some 3, some 3)
    ∧ lookupKV (TR.execute_task 3 c7_tr c7_task).running_tasks "t2"
      = none :=
  C7_handler_failure 3 c7_tr c7_task (fun _ => Except.error "err") "err"
    rfl rfl (by decide)

/-- C8: in every state reachable by any sequence of `MemoryLink`
operations, every key held in any category's index list is present in the
primary mapping (uncategorised keys are allowed, which this subset
statement does not constrain). -/
theorem C8_category_keys_in_memories {m : Mem.MemoryLink}
    (hm : Mem.Reachable m) (cat : String) (keys : List String) (k : String)
    (hc : lookupKV m.categories cat = some keys) (hk : k ∈ keys) :
    memberKV m.memories k = true :=
  ((Mem.wf_reachable hm).2.2 cat keys hc).2 k hk

/-- Witness for C8 at a concrete reachable state with one categorised
key. -/
theorem C8_witness : memberKV c8_state.memories "k" = true :=
  C8_category_keys_in_memories
    (Mem.Reachable.store (Mem.Reachable.init "a" 10) 0 "k" "v" (some "c")
      [] none)
    "c" ["k"] "k" (by decide) (by decide)

/-- C9: importing the export of a store back into it preserves exactly the
live key → (value, metadata, ttl) associations (timestamps are reset to
the import time), and `import_memories` returns the number of records
stored, which is the number of exported (live) entries. Stated for every
well-formed store state (duplicate-free keys, entries recording their own
key — both hold in every reachable state). -/
theorem C9_export_import_round_trip (now : Nat) (m : Mem.MemoryLink)
    (hnd : (m.memories.map Prod.fst).Nodup) (hkc : Mem.KeyConsistent m) :
    (∀ k, Mem.liveLookup now
        (Mem.import_memories now m (Mem.export_memories now m none)).2 k
      = Mem.liveLookup now m k)
    ∧ (Mem.import_memories now m (Mem.export_memories now m none)).1
      = (Mem.export_memories now m none).length := by
  have hexp : Mem.export_memories now m none
      = (m.memories.map Prod.fst).filterMap
          (Mem.exportBody now m.memories) := rfl
  have hrsnd : ((Mem.export_memories now m none).map
      (fun r => r.key)).Nodup := by
    rw [hexp]
    exact Mem.nodup_export_keys hkc now hnd
  constructor
  · intro k
    have h1 := Mem.liveLookup_import_fold now
      (Mem.export_memories now m none) 0 m hnd hrsnd k
    have h2 : Mem.liveLookup now
        (Mem.import_memories now m (Mem.export_memories now m none)).2 k
        = match Mem.recLookup (Mem.export_memories now m none) k with
          | some x => some x
          | none => Mem.liveLookup now m k := h1
    rw [h2]
    by_cases hk : k ∈ m.memories.map Prod.fst
    · have h3 : Mem.recLookup (Mem.export_memories now m none) k
          = Mem.liveLookup now m k := by
        rw [hexp]
        exact Mem.recLookup_exportOver hkc now hnd hk
      rw [h3]
      cases Mem.liveLookup now m k <;> rfl
    · have h3 : Mem.recLookup (Mem.export_memories now m none) k
          = none := by
        rw [hexp]
        exact Mem.recLookup_exportOver_none hkc now hk
      rw [h3]
  · have hc := Mem.import_fold_count (Mem.export_memories now m none) now
      0 m
    simpa using hc

/-- Witness for C9 at a concrete two-entry store. -/
theorem C9_witness :
    Mem.liveLookup 5
        (Mem.import_memories 5 c9_state
          (Mem.export_memories 5 c9_state none)).2 "k2"
      = Mem.liveLookup 5 c9_state "k2"
    ∧ (Mem.import_memories 5 c9_state
        (Mem.export_memories 5 c9_state none)).1
      = (Mem.export_memories 5 c9_state none).length :=
  ⟨(C9_export_import_round_trip 5 c9_state (by decide)
      (by show ∀ p ∈ c9_state.memories, p.2.key = p.1; decide)).1 "k2",
   (C9_export_import_round_trip 5 c9_state (by decide)
      (by show ∀ p ∈ c9_state.memories, p.2.key = p.1; decide)).2⟩

/-- C10: `store` never rejects an insertion — after `store(key, ...)` the
key maps to the freshly created entry (creation time `now`, zeroed access
count), for every prior state including full ones — and under an all-live
workload (no ttl) the entry count grows without bound: storing any list of
distinct fresh keys into an empty store yields exactly that many entries,
regardless of `max_entries`. -/
theorem C10_store_unbounded :
    (∀ (now : Nat) (m : Mem.MemoryLink) (k : String) (v : Val)
      (cat : Option String) (md : List (String × Val)) (ttl : Option Nat),
      lookupKV (Mem.store now m k v cat md ttl).memories k
        = some { key := k, value := v, metadata := md, created_at := now,
                 accessed_at := now, access_count := 0, ttl := ttl })
    ∧ (∀ (agent : String) (maxEntries : Nat) (now : Nat) (v : Val)
        (ks : List String), ks.Nodup →
        (storeAll now v ks (Mem.init agent maxEntries)).memories.length
          = ks.length) := by
  constructor
  · intro now m k v cat md ttl
    rw [Mem.store_memories, lookupKV_insert_self]
  · intro agent maxEntries now v ks hnd
    have h := Mem.storeAll_length now v ks (Mem.init agent maxEntries)
      (by intro p hp; exact absurd hp (List.not_mem_nil p))
      (by intro k _; rfl) hnd
    simpa [Mem.init] using h

/-- Witness for C10: three distinct keys stored into a store with
`max_entries = 1` give three entries. -/
theorem C10_witness :
    (["a", "b", "c"] : List String).Nodup
    ∧ (storeAll 0 "v" ["a", "b", "c"] (Mem.init "x" 1)).memories.length
      = (["a", "b", "c"] : List String).length :=
  ⟨by decide, C10_store_unbounded.2 "x" 1 0 "v" ["a", "b", "c"] (by decide)⟩

end Rippley
